import Mathlib

/-
A shallow embedding of the core mempool engine of this repository
(pending-transaction pool: admission, per-account sequencing/readiness,
priority ordering, parking lot, capacity control, timeline broadcast,
commit/GC sweeps).  The repository sources available here contain only the
test suite of the core mempool (`mempool/src/tests/core_mempool_test.rs`);
the engine itself (`CoreMempool`, its transaction store and indices) is not
among the provided source files, so the definitions below are modelled from
the natural-language specification of the engine and checked for
consistency with the behaviour the test suite pins down.
-/

namespace MempoolModel

/-- Modelled from the spec: a Transaction Record of the engine, abstracted to
the data the sequencing/ordering rules consume: the owning account, the
sequencing key (strict sequence number or sliding-window nonce), the ranking
score (fee/gas price), the transaction-declared expiration timestamp and the
serialized payload size captured at admission.  Committed hashes are
modelled as the (collision-free) transaction content itself, so
byte-identical resubmission is equality of records. -/
structure Txn where
  account : Nat
  seqKey : Nat
  score : Nat
  expiration : Nat
  bytes : Nat
deriving DecidableEq

/-- Modelled from the spec: the per-account sequencing mode, chosen at first
admission — either strict sequential with a committed baseline (the next
expected sequence number), or a sliding nonce window `[minNonce, minNonce + range)`. -/
inductive AccountState where
  | sequential (baseline : Nat)
  | window (minNonce : Nat) (range : Nat)
deriving DecidableEq

/-- Modelled from the spec: a stored entry of the Transaction Store: the
record, the admission tick (a monotone logical admission timestamp, also the
insertion-age used for oldest-first parking-lot eviction and the age-GC),
and the timeline log position, assigned once when the record first becomes
Ready. -/
structure Entry where
  txn : Txn
  admittedAt : Nat
  pos : Option Nat
deriving DecidableEq

/-- Modelled from the spec: the whole mempool engine state: the transaction
store, the per-account sequencing states (also the committed-baseline
cache, which survives removal of an account's last slot), the logical
admission clock, the next timeline position, and the two capacity ceilings
(total record count and total payload bytes). -/
structure Pool where
  entries : List Entry
  accounts : List (Nat × AccountState)
  tick : Nat
  nextPos : Nat
  capCount : Nat
  capBytes : Nat
deriving DecidableEq

/-- Modelled from the spec: the admission outcomes surfaced by `submit`. -/
inductive MempoolStatus where
  | accepted
  | invalidUpdate
  | mempoolFull
deriving DecidableEq

/-- The multiset of stored records, in store order. -/
def liveTxns (p : Pool) : List Txn := p.entries.map (fun e => e.txn)

/-- Number of stored records. -/
def count (p : Pool) : Nat := p.entries.length

/-- Total serialized payload bytes of a list of records. -/
def sumBytes (ts : List Txn) : Nat := (ts.map (fun t => t.bytes)).sum

/-- Total serialized payload bytes currently stored. -/
def totalBytes (p : Pool) : Nat := sumBytes (liveTxns p)

/-- Does a record target the slot (account `a`, sequencing key `k`)? -/
def slotPred (a k : Nat) (u : Txn) : Bool := u.account == a && u.seqKey == k

/-- Is slot (`a`, `k`) occupied in the record list `ts`? -/
def occupiedT (ts : List Txn) (a k : Nat) : Bool := ts.any (slotPred a k)

/-- Association-list lookup of an account's sequencing state. -/
def lookupIn (acs : List (Nat × AccountState)) (a : Nat) : Option AccountState :=
  (acs.find? (fun q => q.1 == a)).map (fun q => q.2)

def lookupAcct (p : Pool) (a : Nat) : Option AccountState := lookupIn p.accounts a

/-- Modelled from the spec: readiness of a stored record.  Strict
sequential: Ready iff every sequence number from the account's committed
baseline up to and including its own is occupied (no gaps).  Sliding
window: Ready iff the nonce lies in the current window — contiguity with
lower nonces is not required. -/
def readyIn (ts : List Txn) (acs : List (Nat × AccountState)) (t : Txn) : Bool :=
  match lookupIn acs t.account with
  | some (AccountState.sequential b) =>
      decide (b ≤ t.seqKey) &&
        (List.range (t.seqKey + 1 - b)).all (fun i => occupiedT ts t.account (b + i))
  | some (AccountState.window m r) =>
      decide (m ≤ t.seqKey) && decide (t.seqKey < m + r)
  | none => false

/-- Readiness of a record relative to a pool. -/
def readyTxn (p : Pool) (t : Txn) : Bool := readyIn (liveTxns p) p.accounts t

/-- Modelled from the spec: would an incoming record land Ready if admitted
into the currently unoccupied slot?  Strict sequential: every sequence
number from the baseline up to (excluding) its own must already be
occupied; its own slot is about to be filled by the record itself.
Sliding window: window membership. -/
def wouldBeReady (p : Pool) (t : Txn) (st : AccountState) : Bool :=
  match st with
  | AccountState.sequential b =>
      decide (b ≤ t.seqKey) &&
        (List.range (t.seqKey - b)).all (fun i => occupiedT (liveTxns p) t.account (b + i))
  | AccountState.window m r =>
      decide (m ≤ t.seqKey) && decide (t.seqKey < m + r)

/-- The currently Ready records. -/
def readyTxns (p : Pool) : List Txn := (liveTxns p).filter (fun t => readyTxn p t)

/-- Modelled from the spec: the parking lot — the subset of stored records
that are currently Blocked (not Ready). -/
def parkingLot (p : Pool) : List Txn := (liveTxns p).filter (fun t => !(readyTxn p t))

/-- Invariant: at most one entry per (account, sequencing-key) slot. -/
def EInv (p : Pool) : Prop :=
  ∀ e₁ ∈ p.entries, ∀ e₂ ∈ p.entries,
    e₁.txn.account = e₂.txn.account → e₁.txn.seqKey = e₂.txn.seqKey → e₁ = e₂

instance (p : Pool) : Decidable (EInv p) := by
  unfold EInv
  exact inferInstance

/-- Invariant: every Ready record has been assigned a timeline position. -/
def Normal (p : Pool) : Prop :=
  ∀ e ∈ p.entries, readyTxn p e.txn = true → e.pos.isSome = true

instance (p : Pool) : Decidable (Normal p) := by
  unfold Normal
  exact inferInstance

/-- Modelled from the spec: the priority comparison of the Priority Index —
ranking score descending, then expiration ascending, then sequencing key
ascending; the owning account disambiguates last, which (with the
one-record-per-slot invariant) realizes the strictly total order the spec
demands over Ready records. -/
def prioLE (a b : Txn) : Prop :=
  b.score < a.score ∨ (a.score = b.score ∧
    (a.expiration < b.expiration ∨ (a.expiration = b.expiration ∧
      (a.seqKey < b.seqKey ∨ (a.seqKey = b.seqKey ∧ a.account ≤ b.account)))))

instance : DecidableRel prioLE := fun a b => by
  unfold prioLE
  exact inferInstance

instance : IsTotal Txn prioLE :=
  ⟨by intro a b; unfold prioLE; omega⟩

instance : IsTrans Txn prioLE :=
  ⟨by intro a b c hab hbc; unfold prioLE at hab hbc ⊢; omega⟩

/-- The three-key order stated by the spec for pull batches: ranking score
descending, then expiration ascending, then sequencing key ascending. -/
def specOrder (a b : Txn) : Prop :=
  b.score < a.score ∨ (a.score = b.score ∧
    (a.expiration < b.expiration ∨ (a.expiration = b.expiration ∧ a.seqKey ≤ b.seqKey)))

/-- The Ready records in priority order (the Priority Index view). -/
def readySorted (p : Pool) : List Txn := List.insertionSort prioLE (readyTxns p)

/-- Modelled from the spec: walk a list of records, stopping at the first
boundary reached of `c` records or accumulated payload bytes exceeding
`b`. -/
def byteTake : Nat → Nat → List Txn → List Txn
  | _, _, [] => []
  | 0, _, _ :: _ => []
  | c + 1, b, t :: ts => if t.bytes ≤ b then t :: byteTake c (b - t.bytes) ts else []

/-- Modelled from the spec: walk records in priority order, skipping
excluded hashes, stopping at the first count or byte boundary. -/
def pullAux (excl : List Txn) : List Txn → Nat → Nat → List Txn
  | [], _, _ => []
  | t :: ts, c, b =>
    match c with
    | 0 => []
    | c' + 1 =>
      if t ∈ excl then pullAux excl ts (c' + 1) b
      else if t.bytes ≤ b then t :: pullAux excl ts c' (b - t.bytes) else []

/-- Modelled from the spec: `pull_batch(max_count, max_bytes, exclude)` —
walks the total priority order over Ready records, skipping excluded
hashes, stopping at the first boundary of count or accumulated byte size;
never mutates the pool. -/
def pull_batch (p : Pool) (maxCount maxBytes : Nat) (excl : List Txn) : List Txn × Pool :=
  (pullAux excl (readySorted p) maxCount maxBytes, p)

/-- An unbounded pull: batch limits large enough to return every Ready record. -/
def pullAll (p : Pool) : List Txn := (pull_batch p (count p) (totalBytes p) []).1

/-- Assign fresh timeline positions (starting at `n`) to the entries whose
record satisfies `f` and that have no position yet. -/
def assignAux (f : Txn → Bool) : List Entry → Nat → List Entry × Nat
  | [], n => ([], n)
  | e :: es, n =>
    if f e.txn && e.pos.isNone then
      let r := assignAux f es (n + 1)
      ({ txn := e.txn, admittedAt := e.admittedAt, pos := some n } :: r.1, r.2)
    else
      let r := assignAux f es n
      (e :: r.1, r.2)

/-- Modelled from the spec: after a mutation, assign a monotonically
increasing timeline position, once, to every record that became Ready and
has none; positions are never reassigned or reused. -/
def assignPositions (p : Pool) : Pool :=
  let r := assignAux (fun t => readyTxn p t) p.entries p.nextPos
  { p with entries := r.1, nextPos := r.2 }

/-- The stored (record, admission tick) pairs — the data the age-GC sweeps. -/
def ages (p : Pool) : List (Txn × Nat) := p.entries.map (fun e => (e.txn, e.admittedAt))

/-- Timeline-position comparison for the timeline read order. -/
def posLE (a b : Entry) : Prop := a.pos.getD 0 ≤ b.pos.getD 0

instance : DecidableRel posLE := fun a b => by
  unfold posLE
  exact inferInstance

instance : IsTotal Entry posLE := ⟨fun _ _ => Nat.le_total _ _⟩

instance : IsTrans Entry posLE := ⟨fun _ _ _ => Nat.le_trans⟩

/-- Modelled from the spec: `read_timeline(from, max_count)` — records with
an assigned log position at least `from`, in position order, positions
whose record has been demoted or removed being silently skipped. -/
def read_timeline (p : Pool) (start cnt : Nat) : List Txn × Nat :=
  let live := p.entries.filter (fun e =>
    readyTxn p e.txn && (match e.pos with
      | some i => decide (start ≤ i)
      | none => false))
  (((List.insertionSort posLE live).take cnt).map (fun e => e.txn), p.nextPos)

/-- An unbounded timeline read from position 0. -/
def timelineAll (p : Pool) : List Txn := (read_timeline p 0 (count p)).1

/-- Does the stored entry occupy slot (`a`, `k`)? -/
def slotMatch (a k : Nat) (e : Entry) : Bool := slotPred a k e.txn

/-- The stored entry at slot (`a`, `k`), when occupied. -/
def findSlot (p : Pool) (a k : Nat) : Option Entry := p.entries.find? (slotMatch a k)

/-- Remove every entry at slot (`a`, `k`). -/
def removeSlot (es : List Entry) (a k : Nat) : List Entry :=
  es.filter (fun e => !(slotMatch a k e))

/-- Admit a record into the store, stamping the admission tick, and assign
timeline positions to whatever became Ready. -/
def pushTxn (p : Pool) (t : Txn) : Pool :=
  assignPositions
    { p with
      entries := p.entries ++ [{ txn := t, admittedAt := p.tick, pos := none }],
      tick := p.tick + 1 }

/-- Replace an account's sequencing state in the cache. -/
def setAcct (acs : List (Nat × AccountState)) (a : Nat) (st : AccountState) :
    List (Nat × AccountState) :=
  (a, st) :: acs.filter (fun q => !(q.1 == a))

/-- Modelled from the spec: advance a sliding-window account's `min_nonce`
to `m'`, evicting every occupied slot with nonce below the new window. -/
def bumpWindow (p : Pool) (a m' r : Nat) : Pool :=
  { p with
    entries := p.entries.filter (fun e => !(e.txn.account == a && decide (e.txn.seqKey < m'))),
    accounts := setAcct p.accounts a (AccountState.window m' r) }

/-- Modelled from the spec: lazy resolution of an account's sequencing
state on submission — an unseen account is recorded with the sequencing
state resolved from the durable store; an explicit window bump carried by
the submission advances a sliding window (evicting below it); otherwise the
cached state wins. -/
def resolveAccount (p : Pool) (a : Nat) (info : AccountState) : Pool :=
  match lookupIn p.accounts a, info with
  | none, _ => assignPositions { p with accounts := setAcct p.accounts a info }
  | some (AccountState.window m r), AccountState.window m' _ =>
      if m < m' then assignPositions (bumpWindow p a m' r) else p
  | some _, _ => p

/-- First entry of minimal admission tick. -/
def oldestIn : List Entry → Option Entry
  | [] => none
  | e :: es =>
    match oldestIn es with
    | none => some e
    | some v => some (if e.admittedAt ≤ v.admittedAt then e else v)

/-- Modelled from the spec: the single oldest-inserted Blocked record
across all accounts — the parking-lot eviction victim. -/
def oldestBlocked (p : Pool) : Option Entry :=
  oldestIn (p.entries.filter (fun e => !(readyTxn p e.txn)))

/-- Modelled from the spec: submission into an occupied slot — a
byte-identical resubmission is reported as success with no state change; a
strictly higher ranking score replaces the stored record (subject to the
byte ceiling); anything else fails with `InvalidUpdate` and changes
nothing. -/
def submitOccupied (p : Pool) (t : Txn) (e : Entry) : MempoolStatus × Pool :=
  if e.txn = t then (MempoolStatus.accepted, p)
  else if e.txn.score < t.score then
    if totalBytes p - e.txn.bytes + t.bytes ≤ p.capBytes then
      (MempoolStatus.accepted,
        pushTxn { p with entries := removeSlot p.entries t.account t.seqKey } t)
    else (MempoolStatus.mempoolFull, p)
  else (MempoolStatus.invalidUpdate, p)

/-- Modelled from the spec: submission into a free slot under capacity
control — if both ceilings leave room, admit; otherwise, only for a record
that would land Ready, evict the single oldest-inserted Blocked record to
make room; a record that would land Blocked fails immediately with
`MempoolFull`. -/
def submitFresh (p : Pool) (t : Txn) (st : AccountState) : MempoolStatus × Pool :=
  if count p + 1 ≤ p.capCount ∧ totalBytes p + t.bytes ≤ p.capBytes then
    (MempoolStatus.accepted, pushTxn p t)
  else if wouldBeReady p t st then
    match oldestBlocked p with
    | some v =>
      if count { p with entries := p.entries.erase v } + 1 ≤ p.capCount ∧
          totalBytes { p with entries := p.entries.erase v } + t.bytes ≤ p.capBytes then
        (MempoolStatus.accepted, pushTxn { p with entries := p.entries.erase v } t)
      else (MempoolStatus.mempoolFull, p)
    | none => (MempoolStatus.mempoolFull, p)
  else (MempoolStatus.mempoolFull, p)

/-- Dispatch a submission on the state of the targeted slot. -/
def submitCore (p : Pool) (t : Txn) (info : AccountState) : MempoolStatus × Pool :=
  match findSlot p t.account t.seqKey with
  | some e => submitOccupied p t e
  | none => submitFresh p t ((lookupAcct p t.account).getD info)

/-- Modelled from the spec: `submit(record)` — resolve the account's
sequencing state, then run admission and capacity control. -/
def submit (p : Pool) (t : Txn) (info : AccountState) : MempoolStatus × Pool :=
  submitCore (resolveAccount p t.account info) t info

/-- A sequence of submissions, all carrying the same resolved account info. -/
def submitSeq (p : Pool) (info : AccountState) (ts : List Txn) : Pool :=
  ts.foldl (fun q t => (submit q t info).2) p

/-- Modelled from the spec: `notify_commit(account, k)` — strict
sequential: remove every record of the account with sequence at most `k`
and advance the committed baseline past `k` (promoting records whose gap
just closed); sliding window: advance `min_nonce` past `k` and evict every
slot below the window; an account unknown to the pool still has the
committed sequence cached as its baseline. -/
def notify_commit (p : Pool) (a k : Nat) : Pool :=
  match lookupIn p.accounts a with
  | some (AccountState.sequential b) =>
      assignPositions
        { p with
          entries := p.entries.filter (fun e => !(e.txn.account == a && decide (e.txn.seqKey ≤ k))),
          accounts := setAcct p.accounts a (AccountState.sequential (Nat.max b (k + 1))) }
  | some (AccountState.window m r) =>
      assignPositions (bumpWindow p a (Nat.max m (k + 1)) r)
  | none =>
      assignPositions { p with accounts := setAcct p.accounts a (AccountState.sequential (k + 1)) }

/-- Modelled from the spec: the system-TTL sweep — remove every record
whose time since admission has reached `ttl` by time `now` (the logical
admission clock measures both). -/
def gc_by_age (p : Pool) (ttl now : Nat) : Pool :=
  assignPositions { p with entries := p.entries.filter (fun e => decide (now < e.admittedAt + ttl)) }

/-- Modelled from the spec: the expiration sweep — remove every record
whose transaction-declared expiration timestamp is at most `now`. -/
def evict_expired (p : Pool) (now : Nat) : Pool :=
  assignPositions { p with entries := p.entries.filter (fun e => decide (now < e.txn.expiration)) }

/-- Modelled from the spec: `get_by_hash` — the stored record whose
committed hash matches, `none` when no live record has that hash. -/
def get_by_hash (p : Pool) (h : Txn) : Option Txn :=
  (p.entries.find? (fun e => e.txn == h)).map (fun e => e.txn)

/-! Concrete states used to exhibit the theorems on explicit inputs. -/

def tA : Txn := { account := 0, seqKey := 0, score := 3, expiration := 10, bytes := 2 }

def tB : Txn := { account := 1, seqKey := 0, score := 5, expiration := 11, bytes := 2 }

def tC : Txn := { account := 1, seqKey := 1, score := 1, expiration := 12, bytes := 2 }

def tD : Txn := { account := 1, seqKey := 3, score := 9, expiration := 13, bytes := 2 }

/-- A pool with two sequential accounts, three Ready records and one
Blocked record (sequence 3 with a gap at 2). -/
def pEx : Pool :=
  { entries :=
      [{ txn := tA, admittedAt := 0, pos := some 0 },
       { txn := tB, admittedAt := 1, pos := some 1 },
       { txn := tC, admittedAt := 2, pos := some 2 },
       { txn := tD, admittedAt := 3, pos := none }],
    accounts := [(0, AccountState.sequential 0), (1, AccountState.sequential 0)],
    tick := 4, nextPos := 3, capCount := 10, capBytes := 100 }

def tB9 : Txn := { account := 1, seqKey := 0, score := 9, expiration := 11, bytes := 2 }

def tB4 : Txn := { account := 1, seqKey := 0, score := 4, expiration := 99, bytes := 2 }

def tS7 : Txn := { account := 1, seqKey := 0, score := 7, expiration := 11, bytes := 2 }

def tS6 : Txn := { account := 1, seqKey := 0, score := 6, expiration := 11, bytes := 2 }

def tU2 : Txn := { account := 1, seqKey := 2, score := 1, expiration := 14, bytes := 2 }

def tF0 : Txn := { account := 1, seqKey := 0, score := 1, expiration := 10, bytes := 2 }

def tF5 : Txn := { account := 1, seqKey := 5, score := 1, expiration := 10, bytes := 2 }

def eF5 : Entry := { txn := tF5, admittedAt := 1, pos := none }

def tF1 : Txn := { account := 1, seqKey := 1, score := 1, expiration := 11, bytes := 2 }

def tF7 : Txn := { account := 1, seqKey := 7, score := 1, expiration := 11, bytes := 2 }

/-- A pool at its count ceiling with one Ready and one Blocked record. -/
def pF : Pool :=
  { entries := [{ txn := tF0, admittedAt := 0, pos := some 0 }, eF5],
    accounts := [(1, AccountState.sequential 0)],
    tick := 2, nextPos := 1, capCount := 2, capBytes := 100 }

def tK0 : Txn := { account := 4, seqKey := 0, score := 1, expiration := 10, bytes := 2 }

def tK5 : Txn := { account := 4, seqKey := 5, score := 1, expiration := 10, bytes := 2 }

def eK5 : Entry := { txn := tK5, admittedAt := 1, pos := none }

def tK1 : Txn := { account := 4, seqKey := 1, score := 1, expiration := 11, bytes := 2 }

/-- A pool at its byte ceiling (4 of 4 payload bytes) while well below its
count ceiling (2 of 10 records), with one Ready and one Blocked record. -/
def pFB : Pool :=
  { entries := [{ txn := tK0, admittedAt := 0, pos := some 0 }, eK5],
    accounts := [(4, AccountState.sequential 0)],
    tick := 2, nextPos := 1, capCount := 10, capBytes := 4 }

def tW0 : Txn := { account := 2, seqKey := 0, score := 5, expiration := 10, bytes := 2 }

def tW2 : Txn := { account := 2, seqKey := 2, score := 5, expiration := 11, bytes := 2 }

def tW4 : Txn := { account := 2, seqKey := 4, score := 5, expiration := 12, bytes := 2 }

/-- A sliding-window pool (window `[0, 3)`) holding nonces 0, 2 (Ready,
despite the gap at 1) and 4 (outside the window, Blocked). -/
def pW : Pool :=
  { entries :=
      [{ txn := tW0, admittedAt := 0, pos := some 0 },
       { txn := tW2, admittedAt := 1, pos := some 1 },
       { txn := tW4, admittedAt := 2, pos := none }],
    accounts := [(2, AccountState.window 0 3)],
    tick := 3, nextPos := 2, capCount := 10, capBytes := 100 }

def tG0 : Txn := { account := 3, seqKey := 0, score := 1, expiration := 100, bytes := 2 }

def tG1 : Txn := { account := 3, seqKey := 1, score := 1, expiration := 0, bytes := 2 }

def tG2 : Txn := { account := 3, seqKey := 2, score := 1, expiration := 100, bytes := 2 }

/-- A sequential chain 0,1,2 all Ready, whose middle record expires at
time 0. -/
def pG : Pool :=
  { entries :=
      [{ txn := tG0, admittedAt := 0, pos := some 0 },
       { txn := tG1, admittedAt := 1, pos := some 1 },
       { txn := tG2, admittedAt := 2, pos := some 2 }],
    accounts := [(3, AccountState.sequential 0)],
    tick := 3, nextPos := 3, capCount := 10, capBytes := 100 }

/-- An empty pool. -/
def pEmpty : Pool :=
  { entries := [], accounts := [], tick := 0, nextPos := 0, capCount := 5, capBytes := 100 }

def tH : Txn := { account := 7, seqKey := 6, score := 1, expiration := 20, bytes := 2 }

/-! Basic list infrastructure. -/

theorem filterMapComm {α β : Type} (f : α → β) (q : β → Bool) (l : List α) :
    (l.map f).filter q = (l.filter (fun a => q (f a))).map f := by
  induction l with
  | nil => rfl
  | cons a l ih =>
    simp only [List.map_cons, List.filter_cons]
    by_cases h : q (f a) = true
    · simp [h, ih]
    · simp [h, ih]

theorem sumBytes_cons (t : Txn) (l : List Txn) : sumBytes (t :: l) = t.bytes + sumBytes l := by
  simp [sumBytes]

theorem sumBytes_append (l₁ l₂ : List Txn) :
    sumBytes (l₁ ++ l₂) = sumBytes l₁ + sumBytes l₂ := by
  simp [sumBytes]

theorem sumBytes_filter_le (q : Txn → Bool) (l : List Txn) :
    sumBytes (l.filter q) ≤ sumBytes l := by
  induction l with
  | nil => simp [sumBytes]
  | cons t l ih =>
    rw [List.filter_cons]
    by_cases h : q t = true
    · rw [if_pos h, sumBytes_cons, sumBytes_cons]; omega
    · rw [if_neg h, sumBytes_cons]; omega

theorem sumBytes_filter_split (q : Txn → Bool) (l : List Txn) :
    sumBytes (l.filter q) + sumBytes (l.filter (fun t => !(q t))) = sumBytes l := by
  induction l with
  | nil => simp [sumBytes]
  | cons t l ih =>
    rw [List.filter_cons, List.filter_cons, sumBytes_cons]
    by_cases h : q t = true
    · rw [if_pos h, if_neg (by simp [h]), sumBytes_cons]; omega
    · rw [if_neg h, if_pos (by simp [h]), sumBytes_cons]; omega

theorem bytes_le_sumBytes {t : Txn} {l : List Txn} (h : t ∈ l) : t.bytes ≤ sumBytes l := by
  induction l with
  | nil => cases h
  | cons u l ih =>
    rcases List.mem_cons.mp h with rfl | h'
    · rw [sumBytes_cons]; omega
    · rw [sumBytes_cons]; have := ih h'; omega

/-! Position assignment preserves the stored records and their admission data. -/

theorem assignAux_map_txn (f : Txn → Bool) (es : List Entry) (n : Nat) :
    ((assignAux f es n).1).map (fun e => e.txn) = es.map (fun e => e.txn) := by
  induction es generalizing n with
  | nil => rfl
  | cons e es ih =>
    by_cases h : (f e.txn && e.pos.isNone) = true
    · simp only [assignAux, if_pos h, List.map_cons]
      rw [ih]
    · simp only [assignAux, if_neg h, List.map_cons]
      rw [ih]

theorem assignAux_map_pair (f : Txn → Bool) (es : List Entry) (n : Nat) :
    ((assignAux f es n).1).map (fun e => (e.txn, e.admittedAt)) =
      es.map (fun e => (e.txn, e.admittedAt)) := by
  induction es generalizing n with
  | nil => rfl
  | cons e es ih =>
    by_cases h : (f e.txn && e.pos.isNone) = true
    · simp only [assignAux, if_pos h, List.map_cons]
      rw [ih]
    · simp only [assignAux, if_neg h, List.map_cons]
      rw [ih]

theorem assignAux_pos (f : Txn → Bool) (es : List Entry) (n : Nat) :
    ∀ e ∈ (assignAux f es n).1, f e.txn = true → e.pos.isSome = true := by
  induction es generalizing n with
  | nil => intro e he; simp [assignAux] at he
  | cons a es ih =>
    intro e he hf
    by_cases h : (f a.txn && a.pos.isNone) = true
    · simp only [assignAux, if_pos h] at he
      rcases List.mem_cons.mp he with rfl | he'
      · rfl
      · exact ih _ e he' hf
    · simp only [assignAux, if_neg h] at he
      rcases List.mem_cons.mp he with rfl | he'
      · cases hp : e.pos with
        | none => exact absurd (by simp [hf, hp]) h
        | some v => rfl
      · exact ih _ e he' hf

theorem liveTxns_assign (p : Pool) : liveTxns (assignPositions p) = liveTxns p := by
  simpa [liveTxns, assignPositions] using
    assignAux_map_txn (fun t => readyTxn p t) p.entries p.nextPos

theorem ages_assign (p : Pool) : ages (assignPositions p) = ages p := by
  simpa [ages, assignPositions] using
    assignAux_map_pair (fun t => readyTxn p t) p.entries p.nextPos

theorem accounts_assign (p : Pool) : (assignPositions p).accounts = p.accounts := rfl

theorem capCount_assign (p : Pool) : (assignPositions p).capCount = p.capCount := rfl

theorem capBytes_assign (p : Pool) : (assignPositions p).capBytes = p.capBytes := rfl

theorem count_assign (p : Pool) : count (assignPositions p) = count p := by
  have h := congrArg List.length (liveTxns_assign p)
  simpa [liveTxns, count] using h

theorem totalBytes_assign (p : Pool) : totalBytes (assignPositions p) = totalBytes p := by
  unfold totalBytes
  rw [liveTxns_assign]

theorem readyTxn_assign (p : Pool) (t : Txn) :
    readyTxn (assignPositions p) t = readyTxn p t := by
  unfold readyTxn
  rw [liveTxns_assign, accounts_assign]

theorem readyTxns_assign (p : Pool) : readyTxns (assignPositions p) = readyTxns p := by
  unfold readyTxns
  rw [liveTxns_assign]
  simp [readyTxn_assign]

theorem readySorted_assign (p : Pool) : readySorted (assignPositions p) = readySorted p := by
  unfold readySorted
  rw [readyTxns_assign]

theorem normal_assign (p : Pool) : Normal (assignPositions p) := by
  intro e he hready
  rw [readyTxn_assign] at hready
  exact assignAux_pos (fun t => readyTxn p t) p.entries p.nextPos e he hready

/-! Occupancy and readiness characterizations. -/

theorem occupiedT_iff {ts : List Txn} {a k : Nat} :
    occupiedT ts a k = true ↔ ∃ u ∈ ts, u.account = a ∧ u.seqKey = k := by
  simp [occupiedT, slotPred, List.any_eq_true]

theorem occupiedT_append (ts : List Txn) (us : List Txn) (a k : Nat) :
    occupiedT (ts ++ us) a k = (occupiedT ts a k || occupiedT us a k) := by
  simp [occupiedT]

theorem readyIn_seq {ts : List Txn} {acs : List (Nat × AccountState)} {t : Txn} {b : Nat}
    (h : lookupIn acs t.account = some (AccountState.sequential b)) :
    (readyIn ts acs t = true) ↔
      (b ≤ t.seqKey ∧ ∀ s, b ≤ s → s ≤ t.seqKey → occupiedT ts t.account s = true) := by
  unfold readyIn
  rw [h]
  simp only [Bool.and_eq_true, decide_eq_true_eq, List.all_eq_true, List.mem_range]
  constructor
  · rintro ⟨hb, hall⟩
    refine ⟨hb, fun s hs1 hs2 => ?_⟩
    have hx := hall (s - b) (by omega)
    have heq : b + (s - b) = s := by omega
    rwa [heq] at hx
  · rintro ⟨hb, hall⟩
    exact ⟨hb, fun i hi => hall (b + i) (by omega) (by omega)⟩

theorem readyIn_win {ts : List Txn} {acs : List (Nat × AccountState)} {t : Txn} {m r : Nat}
    (h : lookupIn acs t.account = some (AccountState.window m r)) :
    (readyIn ts acs t = true) ↔ (m ≤ t.seqKey ∧ t.seqKey < m + r) := by
  unfold readyIn
  rw [h]
  simp

/-! Slot lookup. -/

theorem find?_of_filter_singleton {α : Type} (q : α → Bool) (l : List α) (x : α)
    (h : l.filter q = [x]) : l.find? q = some x := by
  induction l with
  | nil => simp at h
  | cons a l ih =>
    by_cases hq : q a = true
    · rw [List.filter_cons_of_pos hq] at h
      injection h with h1 h2
      subst h1
      exact List.find?_cons_of_pos l hq
    · rw [List.filter_cons_of_neg hq] at h
      rw [List.find?_cons_of_neg l hq]
      exact ih h

theorem findSlot_none {p : Pool} {a k : Nat} :
    findSlot p a k = none ↔ occupiedT (liveTxns p) a k = false := by
  unfold findSlot
  rw [List.find?_eq_none]
  constructor
  · intro h
    rw [Bool.eq_false_iff]
    intro hocc
    obtain ⟨u, hu, hua, huk⟩ := occupiedT_iff.mp hocc
    rw [liveTxns, List.mem_map] at hu
    obtain ⟨e, he, rfl⟩ := hu
    exact h e he (by simp [slotMatch, slotPred, hua, huk])
  · intro h e he hsm
    rw [Bool.eq_false_iff] at h
    apply h
    apply occupiedT_iff.mpr
    refine ⟨e.txn, List.mem_map.mpr ⟨e, he, rfl⟩, ?_⟩
    simpa [slotMatch, slotPred] using hsm

theorem findSlot_mem {p : Pool} {a k : Nat} {e : Entry} (h : findSlot p a k = some e) :
    e ∈ p.entries ∧ e.txn.account = a ∧ e.txn.seqKey = k := by
  refine ⟨List.mem_of_find?_eq_some h, ?_⟩
  have hm := List.find?_some h
  simpa [slotMatch, slotPred] using hm

/-! The batch walk. -/

theorem byteTake_nil (c b : Nat) : byteTake c b [] = [] := by cases c <;> rfl

theorem byteTake_zero (b : Nat) (l : List Txn) : byteTake 0 b l = [] := by cases l <;> rfl

theorem byteTake_cons (c b : Nat) (t : Txn) (ts : List Txn) :
    byteTake (c + 1) b (t :: ts) =
      if t.bytes ≤ b then t :: byteTake c (b - t.bytes) ts else [] := rfl

theorem byteTake_isSublist : ∀ (c b : Nat) (l : List Txn), (byteTake c b l).Sublist l
  | _, _, [] => by rw [byteTake_nil]
  | 0, b, t :: ts => by rw [byteTake_zero]; exact List.nil_sublist _
  | c + 1, b, t :: ts => by
    rw [byteTake_cons]
    by_cases h : t.bytes ≤ b
    · rw [if_pos h]
      exact (byteTake_isSublist c (b - t.bytes) ts).cons₂ t
    · rw [if_neg h]
      exact List.nil_sublist _

theorem byteTake_length_le : ∀ (c b : Nat) (l : List Txn), (byteTake c b l).length ≤ c
  | _, _, [] => by rw [byteTake_nil]; exact Nat.zero_le _
  | 0, b, t :: ts => by rw [byteTake_zero]; exact Nat.le_refl 0
  | c + 1, b, t :: ts => by
    rw [byteTake_cons]
    by_cases h : t.bytes ≤ b
    · rw [if_pos h, List.length_cons]
      exact Nat.succ_le_succ (byteTake_length_le c (b - t.bytes) ts)
    · rw [if_neg h]
      exact Nat.zero_le _

theorem byteTake_sum_le : ∀ (c b : Nat) (l : List Txn), sumBytes (byteTake c b l) ≤ b
  | _, _, [] => by rw [byteTake_nil]; simp [sumBytes]
  | 0, b, t :: ts => by rw [byteTake_zero]; simp [sumBytes]
  | c + 1, b, t :: ts => by
    rw [byteTake_cons]
    by_cases h : t.bytes ≤ b
    · rw [if_pos h, sumBytes_cons]
      have := byteTake_sum_le c (b - t.bytes) ts
      omega
    · rw [if_neg h]; simp [sumBytes]

theorem byteTake_all : ∀ (c b : Nat) (l : List Txn),
    l.length ≤ c → sumBytes l ≤ b → byteTake c b l = l
  | _, _, [], _, _ => by rw [byteTake_nil]
  | 0, b, t :: ts, hc, _ => by simp at hc
  | c + 1, b, t :: ts, hc, hb => by
    rw [byteTake_cons]
    rw [sumBytes_cons] at hb
    rw [if_pos (by omega)]
    rw [byteTake_all c (b - t.bytes) ts (by simpa using hc) (by omega)]

theorem pullAux_nilL (excl : List Txn) (c b : Nat) : pullAux excl [] c b = [] := rfl

theorem pullAux_zero (excl : List Txn) (t : Txn) (ts : List Txn) (b : Nat) :
    pullAux excl (t :: ts) 0 b = [] := rfl

theorem pullAux_cons (excl : List Txn) (t : Txn) (ts : List Txn) (c b : Nat) :
    pullAux excl (t :: ts) (c + 1) b =
      if t ∈ excl then pullAux excl ts (c + 1) b
      else if t.bytes ≤ b then t :: pullAux excl ts c (b - t.bytes) else [] := rfl

theorem pullAux_eq (excl : List Txn) (l : List Txn) : ∀ (c b : Nat),
    pullAux excl l c b = byteTake c b (l.filter (fun t => !(decide (t ∈ excl)))) := by
  induction l with
  | nil => intro c b; rw [pullAux_nilL, List.filter_nil, byteTake_nil]
  | cons t ts ih =>
    intro c b
    by_cases hmem : t ∈ excl
    · have hfil : (t :: ts).filter (fun u => !(decide (u ∈ excl))) =
          ts.filter (fun u => !(decide (u ∈ excl))) := by
        rw [List.filter_cons_of_neg (by simp [hmem])]
      rw [hfil]
      cases c with
      | zero => rw [pullAux_zero, byteTake_zero]
      | succ c' => rw [pullAux_cons, if_pos hmem, ih]
    · have hfil : (t :: ts).filter (fun u => !(decide (u ∈ excl))) =
          t :: ts.filter (fun u => !(decide (u ∈ excl))) := by
        rw [List.filter_cons_of_pos (by simp [hmem])]
      rw [hfil]
      cases c with
      | zero => rw [pullAux_zero, byteTake_zero]
      | succ c' =>
        rw [pullAux_cons, if_neg hmem, byteTake_cons]
        by_cases hb : t.bytes ≤ b
        · rw [if_pos hb, if_pos hb, ih]
        · rw [if_neg hb, if_neg hb]

/-! The priority view. -/

theorem readySorted_perm (p : Pool) : (readySorted p).Perm (readyTxns p) :=
  List.perm_insertionSort prioLE (readyTxns p)

theorem readySorted_sorted (p : Pool) : List.Pairwise prioLE (readySorted p) :=
  List.sorted_insertionSort prioLE (readyTxns p)

theorem mem_readyTxns {p : Pool} {t : Txn} :
    t ∈ readyTxns p ↔ t ∈ liveTxns p ∧ readyTxn p t = true := by
  simp [readyTxns, List.mem_filter]

theorem pullAll_eq (p : Pool) : pullAll p = readySorted p := by
  unfold pullAll pull_batch
  rw [pullAux_eq]
  have hfil : (readySorted p).filter (fun t => !(decide (t ∈ ([] : List Txn)))) =
      readySorted p := by simp
  rw [hfil]
  apply byteTake_all
  · rw [(readySorted_perm p).length_eq]
    calc (readyTxns p).length ≤ (liveTxns p).length := List.length_filter_le _ _
      _ = count p := by simp [liveTxns, count]
  · have h1 : sumBytes (readySorted p) = sumBytes (readyTxns p) := by
      unfold sumBytes
      exact ((readySorted_perm p).map (fun t => t.bytes)).sum_eq
    rw [h1]
    exact sumBytes_filter_le _ _

theorem mem_pullAll {p : Pool} {t : Txn} :
    t ∈ pullAll p ↔ t ∈ liveTxns p ∧ readyTxn p t = true := by
  rw [pullAll_eq, (readySorted_perm p).mem_iff, mem_readyTxns]

/-! The timeline view. -/

theorem mem_timelineAll {p : Pool} {t : Txn} :
    t ∈ timelineAll p ↔
      ∃ e ∈ p.entries, e.txn = t ∧ readyTxn p t = true ∧ e.pos.isSome = true := by
  unfold timelineAll read_timeline
  simp only [List.mem_map]
  constructor
  · rintro ⟨e, he, rfl⟩
    have he' := List.mem_of_mem_take he
    rw [(List.perm_insertionSort posLE _).mem_iff, List.mem_filter] at he'
    obtain ⟨hmem, hcond⟩ := he'
    rw [Bool.and_eq_true] at hcond
    refine ⟨e, hmem, rfl, hcond.1, ?_⟩
    cases hp : e.pos with
    | none => rw [hp] at hcond; simp at hcond
    | some v => rfl
  · rintro ⟨e, hmem, rfl, hready, hpos⟩
    refine ⟨e, ?_, rfl⟩
    have hlen : (List.insertionSort posLE (p.entries.filter (fun e =>
        readyTxn p e.txn && (match e.pos with
          | some i => decide (0 ≤ i)
          | none => false)))).length ≤ count p := by
      rw [(List.perm_insertionSort posLE _).length_eq]
      calc _ ≤ p.entries.length := List.length_filter_le _ _
        _ = count p := rfl
    rw [List.take_of_length_le hlen, (List.perm_insertionSort posLE _).mem_iff,
      List.mem_filter]
    refine ⟨hmem, ?_⟩
    rw [Bool.and_eq_true]
    refine ⟨hready, ?_⟩
    cases hp : e.pos with
    | none => rw [hp] at hpos; simp at hpos
    | some v => simp [hp]

/-! Operation-level facts. -/

theorem count_eq (p : Pool) : count p = (liveTxns p).length := by
  simp [count, liveTxns]

theorem resolve_self {p : Pool} {a : Nat} {st : AccountState}
    (h : lookupIn p.accounts a = some st) : resolveAccount p a st = p := by
  unfold resolveAccount
  rw [h]
  cases st with
  | sequential b => rfl
  | window m r => simp [Nat.lt_irrefl]

theorem resolve_seq {p : Pool} {a : Nat} {b : Nat} (info : AccountState)
    (h : lookupIn p.accounts a = some (AccountState.sequential b)) :
    resolveAccount p a info = p := by
  unfold resolveAccount
  rw [h]

theorem lookupIn_setAcct (acs : List (Nat × AccountState)) (a : Nat) (st : AccountState) :
    lookupIn (setAcct acs a st) a = some st := by
  unfold lookupIn setAcct
  rw [List.find?_cons_of_pos _ (by simp)]
  rfl

theorem bumpWindow_liveTxns (p : Pool) (a m' r : Nat) :
    liveTxns (bumpWindow p a m' r) =
      (liveTxns p).filter (fun u => !(u.account == a && decide (u.seqKey < m'))) := by
  unfold bumpWindow liveTxns
  exact (filterMapComm (fun e => e.txn) (fun u => !(u.account == a && decide (u.seqKey < m')))
    p.entries).symm

theorem pushTxn_liveTxns (p : Pool) (t : Txn) : liveTxns (pushTxn p t) = liveTxns p ++ [t] := by
  unfold pushTxn
  rw [liveTxns_assign]
  simp [liveTxns]

theorem pushTxn_accounts (p : Pool) (t : Txn) : (pushTxn p t).accounts = p.accounts := rfl

theorem pushTxn_capCount (p : Pool) (t : Txn) : (pushTxn p t).capCount = p.capCount := rfl

theorem pushTxn_capBytes (p : Pool) (t : Txn) : (pushTxn p t).capBytes = p.capBytes := rfl

theorem pushTxn_count (p : Pool) (t : Txn) : count (pushTxn p t) = count p + 1 := by
  rw [count_eq, pushTxn_liveTxns, List.length_append, count_eq]
  rfl

theorem pushTxn_totalBytes (p : Pool) (t : Txn) :
    totalBytes (pushTxn p t) = totalBytes p + t.bytes := by
  unfold totalBytes
  rw [pushTxn_liveTxns, sumBytes_append]
  simp [sumBytes]

theorem pushTxn_normal (p : Pool) (t : Txn) : Normal (pushTxn p t) := by
  unfold pushTxn
  exact normal_assign _

theorem submitOccupied_identical {p : Pool} {t : Txn} {e : Entry} (h : e.txn = t) :
    submitOccupied p t e = (MempoolStatus.accepted, p) := by
  unfold submitOccupied
  rw [if_pos h]

theorem submitOccupied_invalid {p : Pool} {t : Txn} {e : Entry}
    (hne : ¬ e.txn = t) (hle : ¬ e.txn.score < t.score) :
    submitOccupied p t e = (MempoolStatus.invalidUpdate, p) := by
  unfold submitOccupied
  rw [if_neg hne, if_neg hle]

theorem submitOccupied_replace {p : Pool} {t : Txn} {e : Entry}
    (hlt : e.txn.score < t.score)
    (hbytes : totalBytes p - e.txn.bytes + t.bytes ≤ p.capBytes) :
    submitOccupied p t e =
      (MempoolStatus.accepted,
        pushTxn { p with entries := removeSlot p.entries t.account t.seqKey } t) := by
  have hne : ¬ e.txn = t := by
    intro heq
    rw [heq] at hlt
    exact Nat.lt_irrefl _ hlt
  unfold submitOccupied
  rw [if_neg hne, if_pos hlt, if_pos hbytes]

theorem submitOccupied_replace_full {p : Pool} {t : Txn} {e : Entry}
    (hlt : e.txn.score < t.score)
    (hbytes : ¬ totalBytes p - e.txn.bytes + t.bytes ≤ p.capBytes) :
    submitOccupied p t e = (MempoolStatus.mempoolFull, p) := by
  have hne : ¬ e.txn = t := by
    intro heq
    rw [heq] at hlt
    exact Nat.lt_irrefl _ hlt
  unfold submitOccupied
  rw [if_neg hne, if_pos hlt, if_neg hbytes]

theorem submitCore_occupied {p : Pool} {t : Txn} {e : Entry} (info : AccountState)
    (hfind : findSlot p t.account t.seqKey = some e) :
    submitCore p t info = submitOccupied p t e := by
  unfold submitCore
  rw [hfind]

theorem submitCore_fresh {p : Pool} {t : Txn} (info : AccountState)
    (hfind : findSlot p t.account t.seqKey = none) :
    submitCore p t info = submitFresh p t ((lookupAcct p t.account).getD info) := by
  unfold submitCore
  rw [hfind]

theorem submitFresh_fits {p : Pool} {t : Txn} (st : AccountState)
    (hfit : count p + 1 ≤ p.capCount ∧ totalBytes p + t.bytes ≤ p.capBytes) :
    submitFresh p t st = (MempoolStatus.accepted, pushTxn p t) := by
  unfold submitFresh
  rw [if_pos hfit]

theorem submitFresh_full_blocked {p : Pool} {t : Txn} {st : AccountState}
    (hfit : ¬ (count p + 1 ≤ p.capCount ∧ totalBytes p + t.bytes ≤ p.capBytes))
    (hready : wouldBeReady p t st = false) :
    submitFresh p t st = (MempoolStatus.mempoolFull, p) := by
  unfold submitFresh
  rw [if_neg hfit]
  simp [hready]

theorem submitFresh_evict {p : Pool} {t : Txn} {st : AccountState} {v : Entry}
    (hfit : ¬ (count p + 1 ≤ p.capCount ∧ totalBytes p + t.bytes ≤ p.capBytes))
    (hready : wouldBeReady p t st = true)
    (hold : oldestBlocked p = some v)
    (hfit2 : count { p with entries := p.entries.erase v } + 1 ≤ p.capCount ∧
      totalBytes { p with entries := p.entries.erase v } + t.bytes ≤ p.capBytes) :
    submitFresh p t st =
      (MempoolStatus.accepted, pushTxn { p with entries := p.entries.erase v } t) := by
  unfold submitFresh
  rw [if_neg hfit]
  simp only [hready, if_true, hold]
  rw [if_pos hfit2]

theorem submitFresh_noVictim {p : Pool} {t : Txn} {st : AccountState}
    (hfit : ¬ (count p + 1 ≤ p.capCount ∧ totalBytes p + t.bytes ≤ p.capBytes))
    (hready : wouldBeReady p t st = true)
    (hold : oldestBlocked p = none) :
    submitFresh p t st = (MempoolStatus.mempoolFull, p) := by
  unfold submitFresh
  rw [if_neg hfit]
  simp only [hready, if_true, hold]

theorem submitFresh_evict_full {p : Pool} {t : Txn} {st : AccountState} {v : Entry}
    (hfit : ¬ (count p + 1 ≤ p.capCount ∧ totalBytes p + t.bytes ≤ p.capBytes))
    (hready : wouldBeReady p t st = true)
    (hold : oldestBlocked p = some v)
    (hfit2 : ¬ (count { p with entries := p.entries.erase v } + 1 ≤ p.capCount ∧
      totalBytes { p with entries := p.entries.erase v } + t.bytes ≤ p.capBytes)) :
    submitFresh p t st = (MempoolStatus.mempoolFull, p) := by
  unfold submitFresh
  rw [if_neg hfit]
  simp only [hready, if_true, hold]
  rw [if_neg hfit2]

theorem oldestIn_spec : ∀ {l : List Entry} {v : Entry}, oldestIn l = some v →
    v ∈ l ∧ ∀ e ∈ l, v.admittedAt ≤ e.admittedAt := by
  intro l
  induction l with
  | nil => intro v h; simp [oldestIn] at h
  | cons a es ih =>
    intro v h
    unfold oldestIn at h
    cases hrec : oldestIn es with
    | none =>
      rw [hrec] at h
      injection h with h
      subst h
      refine ⟨List.mem_cons_self a es, ?_⟩
      intro e he
      rcases List.mem_cons.mp he with rfl | he'
      · omega
      · cases es with
        | nil => cases he'
        | cons b es' =>
          unfold oldestIn at hrec
          cases hrec2 : oldestIn es' with
          | none => rw [hrec2] at hrec; cases hrec
          | some w => rw [hrec2] at hrec; cases hrec
    | some w =>
      rw [hrec] at h
      injection h with h
      obtain ⟨hwmem, hwmin⟩ := ih hrec
      by_cases hle : a.admittedAt ≤ w.admittedAt
      · rw [if_pos hle] at h
        subst h
        refine ⟨List.mem_cons_self _ _, ?_⟩
        intro e he
        rcases List.mem_cons.mp he with rfl | he'
        · omega
        · have := hwmin e he'
          omega
      · rw [if_neg hle] at h
        subst h
        refine ⟨List.mem_cons_of_mem _ hwmem, ?_⟩
        intro e he
        rcases List.mem_cons.mp he with rfl | he'
        · omega
        · exact hwmin e he'

theorem oldestBlocked_spec {p : Pool} {v : Entry} (h : oldestBlocked p = some v) :
    v ∈ p.entries ∧ readyTxn p v.txn = false ∧
      ∀ e ∈ p.entries, readyTxn p e.txn = false → v.admittedAt ≤ e.admittedAt := by
  unfold oldestBlocked at h
  obtain ⟨hmem, hmin⟩ := oldestIn_spec h
  rw [List.mem_filter] at hmem
  obtain ⟨hm, hb⟩ := hmem
  refine ⟨hm, by simpa using hb, ?_⟩
  intro e he hbl
  exact hmin e (List.mem_filter.mpr ⟨he, by simp [hbl]⟩)

theorem resolveAccount_normal (p : Pool) (a : Nat) (info : AccountState) (hn : Normal p) :
    Normal (resolveAccount p a info) := by
  unfold resolveAccount
  split
  · exact normal_assign _
  · split
    · exact normal_assign _
    · exact hn
  · exact hn

theorem submit_normal (p : Pool) (t : Txn) (info : AccountState) (hn : Normal p) :
    Normal (submit p t info).2 := by
  have hn1 : Normal (resolveAccount p t.account info) :=
    resolveAccount_normal p t.account info hn
  unfold submit submitCore
  split
  · unfold submitOccupied
    split
    · exact hn1
    · split
      · split
        · exact pushTxn_normal _ _
        · exact hn1
      · exact hn1
  · unfold submitFresh
    split
    · exact pushTxn_normal _ _
    · split
      · split
        · split
          · exact pushTxn_normal _ _
          · exact hn1
        · exact hn1
      · exact hn1

theorem notify_commit_normal (p : Pool) (a k : Nat) : Normal (notify_commit p a k) := by
  unfold notify_commit
  split
  · exact normal_assign _
  · exact normal_assign _
  · exact normal_assign _

theorem gc_by_age_normal (p : Pool) (ttl now : Nat) : Normal (gc_by_age p ttl now) :=
  normal_assign _

theorem evict_expired_normal (p : Pool) (now : Nat) : Normal (evict_expired p now) :=
  normal_assign _

theorem EInv_liveTxns {p : Pool} (h : EInv p) :
    ∀ t₁ ∈ liveTxns p, ∀ t₂ ∈ liveTxns p,
      t₁.account = t₂.account → t₁.seqKey = t₂.seqKey → t₁ = t₂ := by
  intro t₁ h1 t₂ h2 ha hk
  rw [liveTxns, List.mem_map] at h1 h2
  obtain ⟨e₁, he₁, rfl⟩ := h1
  obtain ⟨e₂, he₂, rfl⟩ := h2
  rw [h e₁ he₁ e₂ he₂ ha hk]

theorem find?_txn_eq (es : List Entry) (h : Txn) :
    ((es.find? (fun e => e.txn == h)).map (fun e => e.txn)) =
      if h ∈ es.map (fun e => e.txn) then some h else none := by
  induction es with
  | nil => simp
  | cons a es ih =>
    by_cases ha : a.txn = h
    · rw [List.find?_cons_of_pos _ (by simp [ha])]
      simp [ha]
    · rw [List.find?_cons_of_neg _ (by simp [ha]), ih]
      have hcond : (h ∈ (a :: es).map (fun e => e.txn)) ↔ (h ∈ es.map (fun e => e.txn)) := by
        rw [List.map_cons, List.mem_cons]
        constructor
        · rintro (hc | hc)
          · exact absurd hc.symm ha
          · exact hc
        · exact Or.inr
      by_cases hm : h ∈ es.map (fun e => e.txn)
      · rw [if_pos hm, if_pos (hcond.mpr hm)]
      · rw [if_neg hm, if_neg (fun hc => hm (hcond.mp hc))]

theorem get_by_hash_eq (p : Pool) (h : Txn) :
    get_by_hash p h = if h ∈ liveTxns p then some h else none := by
  unfold get_by_hash liveTxns
  exact find?_txn_eq p.entries h

/-! The claims. -/

/-- C1 : the priority comparison is total, and (given the
one-record-per-slot invariant) strictly so: no two distinct Ready records
compare equal; an unbounded `pull_batch` returns exactly the Ready records
arranged in priority order, which is a sort of the Ready set by
ranking score descending, then expiration ascending, then sequencing key
ascending. -/
theorem C1_total_priority_order (p : Pool) (hinv : EInv p) :
    (∀ t₁ t₂ : Txn, prioLE t₁ t₂ ∨ prioLE t₂ t₁) ∧
    (∀ t₁ ∈ readyTxns p, ∀ t₂ ∈ readyTxns p, t₁ ≠ t₂ → ¬(prioLE t₁ t₂ ∧ prioLE t₂ t₁)) ∧
    (pull_batch p (count p) (totalBytes p) []).1 = readySorted p ∧
    (readySorted p).Perm (readyTxns p) ∧
    List.Pairwise specOrder (readySorted p) := by
  refine ⟨fun t₁ t₂ => IsTotal.total t₁ t₂, ?_, pullAll_eq p, readySorted_perm p, ?_⟩
  · intro t₁ h1 t₂ h2 hne hboth
    obtain ⟨hab, hba⟩ := hboth
    have hkeys : t₁.account = t₂.account ∧ t₁.seqKey = t₂.seqKey := by
      unfold prioLE at hab hba
      omega
    exact hne (EInv_liveTxns hinv t₁ (mem_readyTxns.mp h1).1 t₂ (mem_readyTxns.mp h2).1
      hkeys.1 hkeys.2)
  · refine (readySorted_sorted p).imp ?_
    intro a b hab
    unfold prioLE at hab
    unfold specOrder
    omega

theorem C1_witness :
    (pull_batch pEx (count pEx) (totalBytes pEx) []).1 = readySorted pEx :=
  (C1_total_priority_order pEx (by decide)).2.2.1

/-- C8 : `pull_batch` never mutates the pool (so a repeated call with the
same arguments returns the same result and every pulled record is still
Ready afterwards), and the returned batch walks the priority order,
skipping excluded hashes, stopping at the first boundary of `max_count`
records or accumulated payload bytes exceeding `max_bytes`. -/
theorem C8_pull_batch_pure (p : Pool) (c b : Nat) (x : List Txn) :
    (pull_batch p c b x).2 = p ∧
    pull_batch ((pull_batch p c b x).2) c b x = pull_batch p c b x ∧
    (∀ t ∈ (pull_batch p c b x).1, t ∈ liveTxns p ∧ readyTxn p t = true ∧ t ∉ x) ∧
    (pull_batch p c b x).1 = byteTake c b ((readySorted p).filter (fun t => !(decide (t ∈ x)))) ∧
    (pull_batch p c b x).1.length ≤ c ∧
    sumBytes (pull_batch p c b x).1 ≤ b ∧
    List.Pairwise prioLE (pull_batch p c b x).1 := by
  have heq : (pull_batch p c b x).1 =
      byteTake c b ((readySorted p).filter (fun t => !(decide (t ∈ x)))) :=
    pullAux_eq x (readySorted p) c b
  refine ⟨rfl, rfl, ?_, heq, ?_, ?_, ?_⟩
  · intro t ht
    rw [heq] at ht
    have hsub : t ∈ (readySorted p).filter (fun t => !(decide (t ∈ x))) :=
      (byteTake_isSublist _ _ _).subset ht
    rw [List.mem_filter] at hsub
    obtain ⟨hmem, hnx⟩ := hsub
    have hrm := (readySorted_perm p).mem_iff.mp hmem
    rw [mem_readyTxns] at hrm
    refine ⟨hrm.1, hrm.2, ?_⟩
    simpa using hnx
  · rw [heq]
    exact byteTake_length_le _ _ _
  · rw [heq]
    exact byteTake_sum_le _ _ _
  · rw [heq]
    have hsubl : List.Sublist
        (byteTake c b ((readySorted p).filter (fun t => !(decide (t ∈ x)))))
        (readySorted p) :=
      (byteTake_isSublist _ _ _).trans (List.filter_sublist _)
    exact List.Pairwise.sublist hsubl (readySorted_sorted p)

theorem C8_witness : (pull_batch pEx 2 100 []).2 = pEx :=
  (C8_pull_batch_pure pEx 2 100 []).1

/-- C9 : `get_by_hash` returns exactly the currently stored record with the
given hash and `none` for any hash with no live record; after a successful
replace of an occupied slot the superseded record's hash resolves to
`none` while the new record's hash resolves to the new record. -/
theorem C9_get_by_hash_current (p : Pool) :
    (∀ h, get_by_hash p h = if h ∈ liveTxns p then some h else none) ∧
    (∀ (t : Txn) (st : AccountState) (e : Entry),
      lookupAcct p t.account = some st →
      findSlot p t.account t.seqKey = some e →
      e.txn.score < t.score →
      totalBytes p - e.txn.bytes + t.bytes ≤ p.capBytes →
      get_by_hash (submit p t st).2 e.txn = none ∧
      get_by_hash (submit p t st).2 t = some t) := by
  refine ⟨fun h => get_by_hash_eq p h, ?_⟩
  intro t st e hacct hfind hlt hbytes
  have hres : resolveAccount p t.account st = p := resolve_self hacct
  have hsub : submit p t st =
      (MempoolStatus.accepted,
        pushTxn { p with entries := removeSlot p.entries t.account t.seqKey } t) := by
    unfold submit
    rw [hres, submitCore_occupied st hfind, submitOccupied_replace hlt hbytes]
  rw [hsub]
  have hlive : liveTxns (pushTxn { p with entries := removeSlot p.entries t.account t.seqKey } t) =
      liveTxns { p with entries := removeSlot p.entries t.account t.seqKey } ++ [t] :=
    pushTxn_liveTxns _ t
  constructor
  · rw [get_by_hash_eq, hlive, if_neg ?hn]
    case hn =>
      intro hmem
      rcases List.mem_append.mp hmem with hmem | hmem
      · rw [liveTxns, List.mem_map] at hmem
        obtain ⟨e', he', heq⟩ := hmem
        unfold removeSlot at he'
        rw [List.mem_filter] at he'
        obtain ⟨_, hcond⟩ := he'
        obtain ⟨hmemE, ha, hk⟩ := findSlot_mem hfind
        apply absurd hcond
        simp [slotMatch, slotPred, heq, ha, hk]
      · rw [List.mem_singleton] at hmem
        rw [hmem] at hlt
        exact Nat.lt_irrefl _ hlt
  · rw [get_by_hash_eq, hlive,
      if_pos (List.mem_append.mpr (Or.inr (List.mem_singleton.mpr rfl)))]

theorem C9_witness :
    get_by_hash (submit pEx tB9 (AccountState.sequential 0)).2 tB = none ∧
    get_by_hash (submit pEx tB9 (AccountState.sequential 0)).2 tB9 = some tB9 :=
  (C9_get_by_hash_current pEx).2 tB9 (AccountState.sequential 0)
    { txn := tB, admittedAt := 1, pos := some 1 }
    (by decide) (by decide) (by decide) (by decide)

/-- C2 : a submission into an occupied (account, sequencing-key) slot
succeeds only if byte-identical or with a strictly higher ranking score; a
byte-identical resubmission is reported as success with no state change; a
non-identical submission without a strictly higher score fails with
`InvalidUpdate`, leaving the pool and every pull unchanged; a strictly
higher score (fitting the byte ceiling) replaces the stored record, the
slot then holding exactly the new record. -/
theorem C2_occupied_slot_admission (p : Pool) (t : Txn) (st : AccountState) (e : Entry)
    (hacct : lookupAcct p t.account = some st)
    (hfind : findSlot p t.account t.seqKey = some e) :
    ((submit p t st).1 = MempoolStatus.accepted → e.txn = t ∨ e.txn.score < t.score) ∧
    (e.txn = t → submit p t st = (MempoolStatus.accepted, p)) ∧
    (e.txn ≠ t → ¬ e.txn.score < t.score →
      submit p t st = (MempoolStatus.invalidUpdate, p) ∧
      ∀ c b x, pull_batch (submit p t st).2 c b x = pull_batch p c b x) ∧
    (e.txn.score < t.score → totalBytes p - e.txn.bytes + t.bytes ≤ p.capBytes →
      (submit p t st).1 = MempoolStatus.accepted ∧
      t ∈ liveTxns (submit p t st).2 ∧
      ∀ u ∈ liveTxns (submit p t st).2, u.account = t.account → u.seqKey = t.seqKey → u = t) := by
  have hkey : submit p t st = submitOccupied p t e := by
    unfold submit
    rw [resolve_self hacct, submitCore_occupied st hfind]
  obtain ⟨hmemE, hea, hek⟩ := findSlot_mem hfind
  refine ⟨?_, ?_, ?_, ?_⟩
  · intro hacc
    by_cases heq : e.txn = t
    · exact Or.inl heq
    · by_cases hlt : e.txn.score < t.score
      · exact Or.inr hlt
      · rw [hkey, submitOccupied_invalid heq hlt] at hacc
        cases hacc
  · intro heq
    rw [hkey, submitOccupied_identical heq]
  · intro hne hnlt
    have h3 : submit p t st = (MempoolStatus.invalidUpdate, p) := by
      rw [hkey, submitOccupied_invalid hne hnlt]
    refine ⟨h3, ?_⟩
    intro c b x
    rw [h3]
  · intro hlt hbytes
    have h4 : submit p t st =
        (MempoolStatus.accepted,
          pushTxn { p with entries := removeSlot p.entries t.account t.seqKey } t) := by
      rw [hkey, submitOccupied_replace hlt hbytes]
    rw [h4]
    refine ⟨rfl, ?_, ?_⟩
    · rw [pushTxn_liveTxns]
      exact List.mem_append.mpr (Or.inr (List.mem_singleton.mpr rfl))
    · intro u hu hua huk
      rw [pushTxn_liveTxns] at hu
      rcases List.mem_append.mp hu with hu | hu
      · rw [liveTxns, List.mem_map] at hu
        obtain ⟨e', he', heq⟩ := hu
        unfold removeSlot at he'
        rw [List.mem_filter] at he'
        obtain ⟨_, hcond⟩ := he'
        exact absurd hcond (by simp [slotMatch, slotPred, heq, hua, huk])
      · exact List.mem_singleton.mp hu

theorem C2_witness : submit pEx tB4 (AccountState.sequential 0) = (MempoolStatus.invalidUpdate, pEx) :=
  ((C2_occupied_slot_admission pEx tB4 (AccountState.sequential 0)
    { txn := tB, admittedAt := 1, pos := some 1 } (by decide) (by decide)).2.2.1
    (by decide) (by decide)).1

/-- C5 : for a sliding-window account a stored record is returned by an
unbounded pull exactly when its nonce lies in the current window — no
contiguity with lower nonces is required; and after `notify_commit`
advances `min_nonce` to `max m (n+1)`, no record of the account with a
nonce below the new `min_nonce` remains in the store. -/
theorem C5_window_readiness (p : Pool) :
    (∀ m r t, t ∈ liveTxns p → lookupAcct p t.account = some (AccountState.window m r) →
      (t ∈ pullAll p ↔ (m ≤ t.seqKey ∧ t.seqKey < m + r))) ∧
    (∀ a m r n, lookupAcct p a = some (AccountState.window m r) →
      lookupAcct (notify_commit p a n) a = some (AccountState.window (Nat.max m (n + 1)) r) ∧
      ∀ t ∈ liveTxns (notify_commit p a n), t.account = a → Nat.max m (n + 1) ≤ t.seqKey) := by
  constructor
  · intro m r t hlive hacct
    rw [mem_pullAll]
    constructor
    · intro hp
      exact (readyIn_win hacct).mp hp.2
    · intro hw
      exact ⟨hlive, (readyIn_win hacct).mpr hw⟩
  · intro a m r n hacct
    unfold lookupAcct at hacct
    have hcomm : notify_commit p a n = assignPositions (bumpWindow p a (Nat.max m (n + 1)) r) := by
      unfold notify_commit
      rw [hacct]
    constructor
    · rw [hcomm]
      unfold lookupAcct
      rw [accounts_assign]
      unfold bumpWindow
      exact lookupIn_setAcct p.accounts a _
    · intro t ht hta
      rw [hcomm, liveTxns_assign, bumpWindow_liveTxns, List.mem_filter] at ht
      have hcond := ht.2
      rw [hta] at hcond
      simp only [beq_self_eq_true, Bool.true_and, Bool.not_eq_true', decide_eq_false_iff_not,
        Nat.not_lt] at hcond
      exact hcond

theorem C5_witness : Nat.max 0 (2 + 1) ≤ tW4.seqKey :=
  ((C5_window_readiness pW).2 2 0 3 2 (by decide)).2 tW4 (by decide) (by decide)

/-- C10 : a commit notification for an (account, sequence) pair with no
record in the pool is not a pure no-op — the committed sequence number is
cached as the account's baseline, so a subsequent submission at the next
sequence number is accepted and immediately Ready, regardless of the
(stale) sequencing state the durable store reports. -/
theorem C10_commit_caches_baseline (p : Pool) (a n : Nat) (t : Txn) (b0 : Nat)
    (hnone : lookupAcct p a = none)
    (hacc : t.account = a) (hseq : t.seqKey = n + 1)
    (hcap : count p + 1 ≤ p.capCount) (hbytes : totalBytes p + t.bytes ≤ p.capBytes)
    (hslot : occupiedT (liveTxns p) a (n + 1) = false) :
    lookupAcct (notify_commit p a n) a = some (AccountState.sequential (n + 1)) ∧
    (submit (notify_commit p a n) t (AccountState.sequential b0)).1 = MempoolStatus.accepted ∧
    t ∈ pullAll (submit (notify_commit p a n) t (AccountState.sequential b0)).2 := by
  unfold lookupAcct at hnone
  have hcomm : notify_commit p a n =
      assignPositions { p with accounts := setAcct p.accounts a (AccountState.sequential (n + 1)) } := by
    unfold notify_commit
    rw [hnone]
  have hlook : lookupAcct (notify_commit p a n) a = some (AccountState.sequential (n + 1)) := by
    rw [hcomm]
    unfold lookupAcct
    rw [accounts_assign]
    exact lookupIn_setAcct p.accounts a _
  have hliveq : liveTxns (notify_commit p a n) = liveTxns p := by
    rw [hcomm, liveTxns_assign]
    rfl
  have hres : resolveAccount (notify_commit p a n) t.account (AccountState.sequential b0) =
      notify_commit p a n := by
    apply resolve_seq
    rw [hacc]
    exact hlook
  have hfind : findSlot (notify_commit p a n) t.account t.seqKey = none := by
    apply findSlot_none.mpr
    rw [hliveq, hacc, hseq]
    exact hslot
  have hcnt : count (notify_commit p a n) = count p := by
    rw [count_eq, hliveq, count_eq]
  have hbyt : totalBytes (notify_commit p a n) = totalBytes p := by
    unfold totalBytes
    rw [hliveq]
  have hcapq : (notify_commit p a n).capCount = p.capCount := by
    rw [hcomm]
    rfl
  have hcapbq : (notify_commit p a n).capBytes = p.capBytes := by
    rw [hcomm]
    rfl
  have hsubmit : submit (notify_commit p a n) t (AccountState.sequential b0) =
      (MempoolStatus.accepted, pushTxn (notify_commit p a n) t) := by
    unfold submit
    rw [hres, submitCore_fresh _ hfind]
    apply submitFresh_fits
    rw [hcnt, hbyt, hcapq, hcapbq]
    exact ⟨hcap, hbytes⟩
  refine ⟨hlook, by rw [hsubmit], ?_⟩
  rw [hsubmit]
  apply mem_pullAll.mpr
  constructor
  · rw [pushTxn_liveTxns]
    exact List.mem_append.mpr (Or.inr (List.mem_singleton.mpr rfl))
  · unfold readyTxn
    rw [pushTxn_liveTxns, pushTxn_accounts]
    apply (readyIn_seq ?hl).mpr
    case hl =>
      rw [hacc]
      exact hlook
    refine ⟨by omega, ?_⟩
    intro s hs1 hs2
    rw [hseq] at hs2
    have hs : s = n + 1 := by omega
    subst hs
    apply occupiedT_iff.mpr
    exact ⟨t, List.mem_append.mpr (Or.inr (List.mem_singleton.mpr rfl)), rfl, hseq⟩

theorem C10_witness :
    lookupAcct (notify_commit pEmpty 7 5) 7 = some (AccountState.sequential 6) ∧
    (submit (notify_commit pEmpty 7 5) tH (AccountState.sequential 0)).1 = MempoolStatus.accepted ∧
    tH ∈ pullAll (submit (notify_commit pEmpty 7 5) tH (AccountState.sequential 0)).2 :=
  C10_commit_caches_baseline pEmpty 7 5 tH 0 (by decide) (by decide) (by decide)
    (by decide) (by decide) (by decide)

theorem gap_not_visible {q : Pool} {t : Txn} {b : Nat}
    (hacct : lookupAcct q t.account = some (AccountState.sequential b))
    (hgap : ∃ s, b ≤ s ∧ s ≤ t.seqKey ∧ occupiedT (liveTxns q) t.account s = false) :
    t ∉ pullAll q ∧ t ∉ timelineAll q := by
  have hnready : ¬ (readyTxn q t = true) := by
    intro hr
    obtain ⟨s, hs1, hs2, hs3⟩ := hgap
    have hocc := ((readyIn_seq hacct).mp hr).2 s hs1 hs2
    rw [hs3] at hocc
    cases hocc
  constructor
  · intro hmem
    exact hnready (mem_pullAll.mp hmem).2
  · intro hmem
    obtain ⟨e, _, _, hr, _⟩ := mem_timelineAll.mp hmem
    exact hnready hr

/-- C7 : the age sweep removes exactly the records admitted at least `ttl`
ago and the expiration sweep removes exactly the records whose declared
expiration is at most `now`; when such a removal leaves a sequence gap for
a strict-sequential account, every surviving record above the gap is no
longer returned by `pull_batch` or `read_timeline`. -/
theorem C7_sweep_removal_and_demotion (p : Pool) :
    (∀ ttl now, ages (gc_by_age p ttl now) =
      (ages p).filter (fun q => decide (now < q.2 + ttl))) ∧
    (∀ now, liveTxns (evict_expired p now) =
      (liveTxns p).filter (fun t => decide (now < t.expiration))) ∧
    (∀ now b t, t ∈ liveTxns (evict_expired p now) →
      lookupAcct (evict_expired p now) t.account = some (AccountState.sequential b) →
      (∃ s, b ≤ s ∧ s ≤ t.seqKey ∧
        occupiedT (liveTxns (evict_expired p now)) t.account s = false) →
      t ∉ pullAll (evict_expired p now) ∧ t ∉ timelineAll (evict_expired p now)) ∧
    (∀ ttl now b t, t ∈ liveTxns (gc_by_age p ttl now) →
      lookupAcct (gc_by_age p ttl now) t.account = some (AccountState.sequential b) →
      (∃ s, b ≤ s ∧ s ≤ t.seqKey ∧
        occupiedT (liveTxns (gc_by_age p ttl now)) t.account s = false) →
      t ∉ pullAll (gc_by_age p ttl now) ∧ t ∉ timelineAll (gc_by_age p ttl now)) := by
  refine ⟨?_, ?_, ?_, ?_⟩
  · intro ttl now
    unfold gc_by_age
    rw [ages_assign]
    unfold ages
    exact (filterMapComm (fun e => (e.txn, e.admittedAt))
      (fun q => decide (now < q.2 + ttl)) p.entries).symm
  · intro now
    unfold evict_expired
    rw [liveTxns_assign]
    unfold liveTxns
    exact (filterMapComm (fun e => e.txn)
      (fun t => decide (now < t.expiration)) p.entries).symm
  · intro now b t _ hacct hgap
    exact gap_not_visible hacct hgap
  · intro ttl now b t _ hacct hgap
    exact gap_not_visible hacct hgap

theorem C7_witness :
    tG2 ∉ pullAll (evict_expired pG 5) ∧ tG2 ∉ timelineAll (evict_expired pG 5) :=
  (C7_sweep_removal_and_demotion pG).2.2.1 5 0 tG2 (by decide) (by decide)
    ⟨1, by decide, by decide, by decide⟩

theorem ready_visible {q : Pool} {t : Txn} (hn : Normal q) (hlive : t ∈ liveTxns q)
    (hready : readyTxn q t = true) :
    t ∈ pullAll q ∧ t ∈ timelineAll q ∧ t ∉ parkingLot q := by
  refine ⟨mem_pullAll.mpr ⟨hlive, hready⟩, ?_, ?_⟩
  · rw [liveTxns, List.mem_map] at hlive
    obtain ⟨e, he, het⟩ := hlive
    have hpos := hn e he (by rw [het]; exact hready)
    exact mem_timelineAll.mpr ⟨e, he, het, hready, hpos⟩
  · intro hmem
    rw [parkingLot, List.mem_filter] at hmem
    have hc := hmem.2
    rw [hready] at hc
    cases hc

/-- C4 : for a strict-sequential account a stored record is returned by an
unbounded pull exactly when every sequence number from the account's
baseline up to and including its own is occupied (no gaps); and after a
submission or a commit notification, any stored record of a
strict-sequential account whose contiguity from the baseline holds in the
resulting pool — in particular a previously Blocked sibling promoted by
the operation — is out of the parking lot and visible to both `pull_batch`
and `read_timeline`. -/
theorem C4_sequential_readiness (p : Pool) (hn : Normal p) :
    (∀ b t, t ∈ liveTxns p → lookupAcct p t.account = some (AccountState.sequential b) →
      (t ∈ pullAll p ↔
        (b ≤ t.seqKey ∧ ∀ s, b ≤ s → s ≤ t.seqKey →
          occupiedT (liveTxns p) t.account s = true))) ∧
    (∀ u info b t, t ∈ liveTxns (submit p u info).2 →
      lookupAcct (submit p u info).2 t.account = some (AccountState.sequential b) →
      b ≤ t.seqKey →
      (∀ s, b ≤ s → s ≤ t.seqKey →
        occupiedT (liveTxns (submit p u info).2) t.account s = true) →
      t ∈ pullAll (submit p u info).2 ∧ t ∈ timelineAll (submit p u info).2 ∧
        t ∉ parkingLot (submit p u info).2) ∧
    (∀ a n b t, t ∈ liveTxns (notify_commit p a n) →
      lookupAcct (notify_commit p a n) t.account = some (AccountState.sequential b) →
      b ≤ t.seqKey →
      (∀ s, b ≤ s → s ≤ t.seqKey →
        occupiedT (liveTxns (notify_commit p a n)) t.account s = true) →
      t ∈ pullAll (notify_commit p a n) ∧ t ∈ timelineAll (notify_commit p a n) ∧
        t ∉ parkingLot (notify_commit p a n)) := by
  refine ⟨?_, ?_, ?_⟩
  · intro b t hlive hacct
    rw [mem_pullAll]
    constructor
    · intro hp
      exact (readyIn_seq hacct).mp hp.2
    · intro hw
      exact ⟨hlive, (readyIn_seq hacct).mpr hw⟩
  · intro u info b t hlive hacct hb hall
    exact ready_visible (submit_normal p u info hn) hlive ((readyIn_seq hacct).mpr ⟨hb, hall⟩)
  · intro a n b t hlive hacct hb hall
    exact ready_visible (notify_commit_normal p a n) hlive ((readyIn_seq hacct).mpr ⟨hb, hall⟩)

theorem erase_live (p : Pool) (v : Entry) (hv : v ∈ p.entries) :
    (liveTxns p).Perm (v.txn :: liveTxns { p with entries := p.entries.erase v }) := by
  have hperm := List.perm_cons_erase hv
  have hm := hperm.map (fun e => e.txn)
  simpa [liveTxns] using hm

theorem erase_count (p : Pool) (v : Entry) (hv : v ∈ p.entries) :
    count { p with entries := p.entries.erase v } + 1 = count p := by
  have h := (erase_live p v hv).length_eq
  rw [count_eq, count_eq]
  rw [List.length_cons] at h
  omega

theorem erase_totalBytes (p : Pool) (v : Entry) (hv : v ∈ p.entries) :
    totalBytes { p with entries := p.entries.erase v } + v.txn.bytes = totalBytes p := by
  unfold totalBytes
  have h := ((erase_live p v hv).map (fun t => t.bytes)).sum_eq
  rw [List.map_cons, List.sum_cons] at h
  unfold sumBytes
  omega

/-- C6 : with a free target slot and the pool unable to admit the record
within the count or the byte ceiling: a record that would land Blocked
fails immediately with `MempoolFull` and nothing — in particular no
Blocked record — is evicted; a record that would land Ready is accepted
after evicting exactly the single oldest-inserted Blocked record across
all accounts; and a submission never drives the stored count or byte
total past the configured ceilings. -/
theorem C6_capacity_eviction (p : Pool) (t : Txn) (st : AccountState)
    (hacct : lookupAcct p t.account = some st)
    (hfree : findSlot p t.account t.seqKey = none) :
    (¬ (count p + 1 ≤ p.capCount ∧ totalBytes p + t.bytes ≤ p.capBytes) →
      wouldBeReady p t st = false →
      submit p t st = (MempoolStatus.mempoolFull, p)) ∧
    (∀ v, ¬ (count p + 1 ≤ p.capCount ∧ totalBytes p + t.bytes ≤ p.capBytes) →
      count p ≤ p.capCount →
      wouldBeReady p t st = true →
      oldestBlocked p = some v →
      totalBytes p + t.bytes ≤ p.capBytes + v.txn.bytes →
      (submit p t st).1 = MempoolStatus.accepted ∧
      liveTxns (submit p t st).2 = (p.entries.erase v).map (fun e => e.txn) ++ [t] ∧
      v ∈ p.entries ∧ readyTxn p v.txn = false ∧
      (∀ e ∈ p.entries, readyTxn p e.txn = false → v.admittedAt ≤ e.admittedAt)) ∧
    (count p ≤ p.capCount → totalBytes p ≤ p.capBytes →
      count (submit p t st).2 ≤ p.capCount ∧ totalBytes (submit p t st).2 ≤ p.capBytes) := by
  have hget : (lookupAcct p t.account).getD st = st := by
    rw [hacct]
    rfl
  have hcore : submit p t st = submitFresh p t st := by
    unfold submit
    rw [resolve_self hacct, submitCore_fresh st hfree, hget]
  refine ⟨?_, ?_, ?_⟩
  · intro hfull hblocked
    rw [hcore]
    exact submitFresh_full_blocked hfull hblocked
  · intro v hfull hcnt hready hold hbytes
    obtain ⟨hvmem, hvblocked, hvmin⟩ := oldestBlocked_spec hold
    have hec := erase_count p v hvmem
    have heb := erase_totalBytes p v hvmem
    have hfit2 : count { p with entries := p.entries.erase v } + 1 ≤ p.capCount ∧
        totalBytes { p with entries := p.entries.erase v } + t.bytes ≤ p.capBytes := by
      constructor <;> omega
    have hsub : submit p t st =
        (MempoolStatus.accepted, pushTxn { p with entries := p.entries.erase v } t) := by
      rw [hcore]
      exact submitFresh_evict hfull hready hold hfit2
    rw [hsub]
    refine ⟨rfl, ?_, hvmem, hvblocked, hvmin⟩
    rw [pushTxn_liveTxns]
    rfl
  · intro hc hb
    rw [hcore]
    by_cases hf : (count p + 1 ≤ p.capCount ∧ totalBytes p + t.bytes ≤ p.capBytes)
    · rw [submitFresh_fits st hf]
      exact ⟨by rw [pushTxn_count]; exact hf.1, by rw [pushTxn_totalBytes]; exact hf.2⟩
    · by_cases hr : wouldBeReady p t st = true
      · cases ho : oldestBlocked p with
        | none =>
          rw [submitFresh_noVictim hf hr ho]
          exact ⟨hc, hb⟩
        | some v =>
          by_cases hf2 : (count { p with entries := p.entries.erase v } + 1 ≤ p.capCount ∧
              totalBytes { p with entries := p.entries.erase v } + t.bytes ≤ p.capBytes)
          · rw [submitFresh_evict hf hr ho hf2]
            exact ⟨by rw [pushTxn_count]; exact hf2.1, by rw [pushTxn_totalBytes]; exact hf2.2⟩
          · rw [submitFresh_evict_full hf hr ho hf2]
            exact ⟨hc, hb⟩
      · have hr' : wouldBeReady p t st = false := by
          cases hw : wouldBeReady p t st
          · rfl
          · exact absurd hw hr
        rw [submitFresh_full_blocked hf hr']
        exact ⟨hc, hb⟩

theorem C6_witness : (submit pFB tK1 (AccountState.sequential 0)).1 = MempoolStatus.accepted :=
  ((C6_capacity_eviction pFB tK1 (AccountState.sequential 0) (by decide) (by decide)).2.1 eK5
    (by decide) (by decide) (by decide) (by decide) (by decide)).1

theorem filter_not_then {α : Type} (m : α → Bool) (l : List α) :
    (l.filter (fun u => !(m u))).filter m = [] := by
  induction l with
  | nil => rfl
  | cons a l ih =>
    rw [List.filter_cons]
    by_cases h : m a = true
    · rw [if_neg (by simp [h])]
      exact ih
    · rw [if_pos (by simp [h]), List.filter_cons, if_neg (by simp [h])]
      exact ih

theorem map_txn_singleton {l : List Entry} {cur : Txn}
    (h : l.map (fun e => e.txn) = [cur]) : ∃ e, l = [e] ∧ e.txn = cur := by
  cases l with
  | nil => cases h
  | cons e l' =>
    rw [List.map_cons] at h
    injection h with h1 h2
    rw [List.map_eq_nil_iff] at h2
    exact ⟨e, by rw [h2], h1⟩

theorem removeSlot_liveTxns (p : Pool) (a k : Nat) :
    liveTxns { p with entries := removeSlot p.entries a k } =
      (liveTxns p).filter (fun u => !(slotPred a k u)) := by
  unfold removeSlot liveTxns slotMatch
  exact (filterMapComm (fun e => e.txn) (fun u => !(slotPred a k u)) p.entries).symm

theorem submit_slot_step {q : Pool} {st : AccountState} {cur t : Txn}
    (hacct : lookupIn q.accounts t.account = some st)
    (hsingle : (liveTxns q).filter (slotPred t.account t.seqKey) = [cur])
    (hbytes : totalBytes q + t.bytes ≤ q.capBytes) :
    (liveTxns (submit q t st).2).filter (slotPred t.account t.seqKey) =
      [if cur.score < t.score then t else cur] ∧
    (submit q t st).2.accounts = q.accounts ∧
    (submit q t st).2.capBytes = q.capBytes ∧
    totalBytes (submit q t st).2 ≤ totalBytes q + t.bytes := by
  have hfiltE : (q.entries.filter (fun e => slotPred t.account t.seqKey e.txn)).map
      (fun e => e.txn) = [cur] := by
    rw [← filterMapComm]
    exact hsingle
  obtain ⟨ent, hent, hentTxn⟩ := map_txn_singleton hfiltE
  have hfind : findSlot q t.account t.seqKey = some ent :=
    find?_of_filter_singleton (slotMatch t.account t.seqKey) q.entries ent hent
  have hsub : submit q t st = submitOccupied q t ent := by
    unfold submit
    rw [resolve_self hacct, submitCore_occupied st hfind]
  by_cases hident : ent.txn = t
  · have hct : cur = t := hentTxn.symm.trans hident
    rw [hsub, submitOccupied_identical hident]
    dsimp only
    refine ⟨?_, rfl, rfl, by omega⟩
    rw [hsingle, hct]
    rw [if_neg (Nat.lt_irrefl _)]
  · by_cases hlt : ent.txn.score < t.score
    · have hguard : totalBytes q - ent.txn.bytes + t.bytes ≤ q.capBytes := by omega
      have hrep := submitOccupied_replace (p := q) (t := t) (e := ent) hlt hguard
      have hlt' : cur.score < t.score := by
        rw [← hentTxn]
        exact hlt
      rw [hsub, hrep]
      dsimp only
      refine ⟨?_, rfl, rfl, ?_⟩
      · rw [pushTxn_liveTxns, List.filter_append, removeSlot_liveTxns, filter_not_then]
        rw [if_pos hlt']
        rw [List.nil_append, List.filter_cons]
        rw [if_pos (by simp [slotPred])]
        rfl
      · rw [pushTxn_totalBytes]
        have hle : totalBytes { q with entries := removeSlot q.entries t.account t.seqKey } ≤
            totalBytes q := by
          unfold totalBytes
          rw [removeSlot_liveTxns]
          exact sumBytes_filter_le _ _
        omega
    · have hrep := submitOccupied_invalid (p := q) (t := t) (e := ent) hident hlt
      rw [hsub, hrep]
      dsimp only
      refine ⟨?_, rfl, rfl, by omega⟩
      rw [hsingle]
      rw [if_neg (by rw [hentTxn] at hlt; exact hlt)]

/-- C3 : after any sequence of submissions targeting the same occupied
(account, sequencing-key) slot, exactly one record occupies the slot — an
insert into an occupied slot is a replace, never a second entry — and the
surviving record carries the highest ranking score accepted so far (the
running maximum of the initial and submitted scores), being either the
initial record or one of the submitted ones. -/
theorem C3_one_record_per_slot (p : Pool) (a k : Nat) (st : AccountState) (c0 : Txn)
    (ts : List Txn)
    (hacct : lookupAcct p a = some st)
    (hsingle : (liveTxns p).filter (slotPred a k) = [c0])
    (hts : ∀ t ∈ ts, t.account = a ∧ t.seqKey = k)
    (hbytes : totalBytes p + sumBytes ts ≤ p.capBytes) :
    ∃ c, (liveTxns (submitSeq p st ts)).filter (slotPred a k) = [c] ∧
      c.score = (ts.map (fun u => u.score)).foldl Nat.max c0.score ∧
      (c = c0 ∨ c ∈ ts) := by
  induction ts generalizing p c0 with
  | nil => exact ⟨c0, hsingle, rfl, Or.inl rfl⟩
  | cons t rest ih =>
    obtain ⟨hta, htk⟩ := hts t (List.mem_cons_self _ _)
    have hb1 : totalBytes p + t.bytes ≤ p.capBytes := by
      rw [sumBytes_cons] at hbytes
      omega
    have hacct' : lookupIn p.accounts t.account = some st := by
      rw [hta]
      exact hacct
    have hsingle' : (liveTxns p).filter (slotPred t.account t.seqKey) = [c0] := by
      rw [hta, htk]
      exact hsingle
    obtain ⟨hs', hacc', hcapb', htb'⟩ := submit_slot_step hacct' hsingle' hb1
    have hacct2 : lookupAcct (submit p t st).2 a = some st := by
      unfold lookupAcct
      rw [hacc']
      exact hacct
    have hsingle2 : (liveTxns (submit p t st).2).filter (slotPred a k) =
        [if c0.score < t.score then t else c0] := by
      rw [← hta, ← htk]
      exact hs'
    have hbytes2 : totalBytes (submit p t st).2 + sumBytes rest ≤ (submit p t st).2.capBytes := by
      rw [hcapb']
      rw [sumBytes_cons] at hbytes
      omega
    obtain ⟨c, hc1, hc2, hc3⟩ := ih (submit p t st).2 (if c0.score < t.score then t else c0)
      hacct2 hsingle2 (fun u hu => hts u (List.mem_cons_of_mem _ hu)) hbytes2
    refine ⟨c, hc1, ?_, ?_⟩
    · rw [hc2, List.map_cons, List.foldl_cons]
      have hcs : (if c0.score < t.score then t else c0).score = Nat.max c0.score t.score := by
        by_cases h : c0.score < t.score
        · rw [if_pos h]
          exact (Nat.max_eq_right (Nat.le_of_lt h)).symm
        · rw [if_neg h]
          exact (Nat.max_eq_left (Nat.le_of_not_lt h)).symm
      rw [hcs]
    · rcases hc3 with rfl | hc3
      · by_cases h : c0.score < t.score
        · rw [if_pos h]
          exact Or.inr (List.mem_cons_self _ _)
        · rw [if_neg h]
          exact Or.inl rfl
      · exact Or.inr (List.mem_cons_of_mem _ hc3)

theorem C3_witness :
    ∃ c, (liveTxns (submitSeq pEx (AccountState.sequential 0) [tS7, tS6])).filter
        (slotPred 1 0) = [c] ∧
      c.score = ([tS7, tS6].map (fun u => u.score)).foldl Nat.max tB.score ∧
      (c = tB ∨ c ∈ [tS7, tS6]) :=
  C3_one_record_per_slot pEx 1 0 (AccountState.sequential 0) tB [tS7, tS6]
    (by decide) (by decide) (by decide) (by decide)

theorem C4_witness :
    tD ∈ pullAll (submit pEx tU2 (AccountState.sequential 0)).2 ∧
    tD ∈ timelineAll (submit pEx tU2 (AccountState.sequential 0)).2 ∧
    tD ∉ parkingLot (submit pEx tU2 (AccountState.sequential 0)).2 :=
  (C4_sequential_readiness pEx (by decide)).2.1 tU2 (AccountState.sequential 0) 0 tD
    (by decide) (by decide) (by decide)
    (by
      intro s hs1 hs2
      have hs2' : s ≤ 3 := by simpa [tD] using hs2
      interval_cases s <;> decide)

end MempoolModel
